import Mathlib

/-!
Shallow embedding of the board-refresh and ticker pipeline of `src/src/rail.cpp`
(TRAKKR departure-board firmware).  Arduino `String` values are modelled as
`List Char`; `uint32_t` arithmetic is `Nat` reduced modulo `2^32`.  Each
definition mirrors one function of the source file; the theorems at the end of
the file settle the frozen claims about the program.
-/

namespace Trakkr

/-- `isspace` character class used by Arduino `String::trim`. -/
def isSpaceB (c : Char) : Bool :=
  c == ' ' || c == '\t' || c == '\n' || c == Char.ofNat 11 || c == Char.ofNat 12 || c == '\r'

/-- Leading-whitespace removal half of Arduino `String::trim`. -/
def trimLeft : List Char → List Char
  | [] => []
  | c :: cs => if isSpaceB c then trimLeft cs else c :: cs

/-- Trailing-whitespace removal half of Arduino `String::trim`. -/
def trimRight : List Char → List Char
  | [] => []
  | c :: cs =>
    let r := trimRight cs
    if r = [] ∧ isSpaceB c then [] else c :: r

/-- Arduino `String::trim`: strip leading and trailing `isspace` characters. -/
def trimStr (l : List Char) : List Char := trimRight (trimLeft l)

/-- The double-space collapsing loop of rail.cpp (lines 772-775 and 451):
`if (s[p]==' ' && s[p+1]==' ') s.remove(p,1); else ++p;`. -/
def collapseSpaces : List Char → List Char
  | [] => []
  | [c] => [c]
  | c1 :: c2 :: rest =>
    if c1 = ' ' ∧ c2 = ' ' then collapseSpaces (c2 :: rest)
    else c1 :: collapseSpaces (c2 :: rest)

/-- Scan helper for `findChar`: absolute index of the first occurrence of `c`
in the suffix, where `i` is the absolute index of the suffix head. -/
def findCharAux (c : Char) : List Char → Nat → Option Nat
  | [], _ => none
  | x :: xs, i => if x = c then some i else findCharAux c xs (i + 1)

/-- Arduino `String::indexOf(char, fromIndex)`: absolute index of the first
occurrence of `c` at or after index `i`, `none` when absent. -/
def findChar (l : List Char) (c : Char) (i : Nat) : Option Nat :=
  findCharAux c (l.drop i) i

/-- Scan helper for `subFind`: absolute index of the first suffix having `pat`
as a prefix. -/
def subFindAux (pat : List Char) : List Char → Nat → Option Nat
  | [], _ => none
  | x :: xs, i =>
    if pat.isPrefixOf (x :: xs) then some i else subFindAux pat xs (i + 1)

/-- Arduino `String::indexOf(str, fromIndex)` (via `strstr`): absolute index of
the first occurrence of `pat` starting at or after `i`. -/
def subFind (l pat : List Char) (i : Nat) : Option Nat :=
  subFindAux pat (l.drop i) i

/-- Arduino `String::substring(a, b)`: characters of indices `[a, b)`. -/
def substr (l : List Char) (a b : Nat) : List Char := (l.take b).drop a

/-- Fuel-indexed worker for `replaceAll`; fuel bounds the number of scanned
positions (the pattern is non-empty so `l.length` fuel always suffices). -/
def replaceAllGo (pat rep : List Char) : Nat → List Char → List Char
  | 0, l => l
  | _ + 1, [] => []
  | f + 1, c :: rest =>
    if pat.isPrefixOf (c :: rest) then rep ++ replaceAllGo pat rep f ((c :: rest).drop pat.length)
    else c :: replaceAllGo pat rep f rest

/-- Arduino `String::replace(find, replace)`: left-to-right, non-overlapping,
resuming the scan after each inserted replacement. -/
def replaceAll (l pat rep : List Char) : List Char :=
  if pat = [] then l else replaceAllGo pat rep l.length l

/-- `htmlDecode` of rail.cpp (lines 152-159): the six entity replacements in
source order (also inlined at lines 761-763 for notice messages). -/
def htmlDecode (s : List Char) : List Char :=
  let s1 := replaceAll s "&nbsp;".data " ".data
  let s2 := replaceAll s1 "&amp;".data "&".data
  let s3 := replaceAll s2 "&lt;".data "<".data
  let s4 := replaceAll s3 "&gt;".data ">".data
  let s5 := replaceAll s4 "&quot;".data "\"".data
  replaceAll s5 "&apos;".data "'".data

/-- Fuel-indexed worker for `stripTags`; every iteration removes at least two
characters, so `l.length` fuel always suffices. -/
def stripTagsGo : Nat → List Char → List Char
  | 0, l => l
  | f + 1, l =>
    match findChar l '<' 0 with
    | none => l
    | some lt =>
      match findChar l '>' (lt + 1) with
      | none => l.take lt
      | some gt => stripTagsGo f (l.take lt ++ l.drop (gt + 1))

/-- The tag-stripping loop of rail.cpp (lines 765-770): repeatedly remove the
span from the first `<` through the next `>`; if no `>` follows, truncate. -/
def stripTags (l : List Char) : List Char := stripTagsGo l.length l

/-- `keepFirstSentence` of rail.cpp (lines 194-200): keep text up to and
including the first `'.'` (then trim); input without a `'.'` passes through. -/
def keepFirstSentence (l : List Char) : List Char :=
  match findChar l '.' 0 with
  | none => l
  | some idx => trimStr (substr l 0 (idx + 1))

/-- The notice-message text pipeline of rail.cpp (lines 761-778): entity
decode, tag strip, space collapse, trim, first-sentence truncation. -/
def noticeClean (txt : List Char) : List Char :=
  keepFirstSentence (trimStr (collapseSpaces (stripTags (htmlDecode txt))))

/-- Modelled from the spec (§4.2 notice pipeline, for the refinement
comparison of claim C5): truncation to the text up to and including the first
sentence terminator, with terminator `'.'` only, and no further trimming. -/
def specFirstSentence (l : List Char) : List Char :=
  match findChar l '.' 0 with
  | none => l
  | some idx => substr l 0 (idx + 1)

/-- Modelled from the spec: the notice pipeline as the spec words it —
decode the fixed entity set, strip remaining tag spans, collapse space runs,
trim, truncate at the first sentence terminator (keeping it). -/
def specNoticeClean (txt : List Char) : List Char :=
  specFirstSentence (trimStr (collapseSpaces (stripTags (htmlDecode txt))))

/-! ### XML tag scanner (rail.cpp lines 594-628) -/

/-- Drop the attribute part of a tag head: `head.substring(0, head.indexOf(' '))`
when a space is present (rail.cpp line 599 / 617). -/
def headTrimAttrs (head : List Char) : List Char :=
  match findChar head ' ' 0 with
  | some sp => head.take sp
  | none => head

/-- Local (post-colon) tag name of a space-trimmed head
(rail.cpp line 600 / 618). -/
def bareOf (h2 : List Char) : List Char :=
  match findChar h2 ':' 0 with
  | some col => h2.drop (col + 1)
  | none => h2

/-- Namespace prefix (colon included) of a space-trimmed head
(rail.cpp line 603 / 620). -/
def prefOf (h2 : List Char) : List Char :=
  match findChar h2 ':' 0 with
  | some col => h2.take (col + 1)
  | none => []

/-- Fuel-indexed worker of `get1ns`; each loop iteration advances the scan
position by at least two, so `xml.length + 1` fuel always suffices. -/
def get1nsGo (xml tag : List Char) : Nat → Nat → List Char
  | 0, _ => []
  | f + 1, pos =>
    match findChar xml '<' pos with
    | none => []
    | some a =>
      match findChar xml '>' (a + 1) with
      | none => []
      | some b =>
        let h2 := headTrimAttrs (substr xml (a + 1) b)
        if bareOf h2 = tag then
          let close := '<' :: '/' :: (prefOf h2 ++ tag ++ ['>'])
          match subFind xml close (b + 1) with
          | some cend => substr xml (b + 1) cend
          | none => get1nsGo xml tag f (b + 1)
        else get1nsGo xml tag f (b + 1)

/-- `get1ns` of rail.cpp (lines 594-609): inner text of the first element whose
local (namespace-stripped, attribute-stripped) tag name equals `tag`. -/
def get1ns (xml tag : List Char) : List Char := get1nsGo xml tag (xml.length + 1) 0

/-- Fuel-indexed worker of `nextTagNS`. -/
def nextTagNSGo (xml tag : List Char) : Nat → Nat → Option (List Char × Nat)
  | 0, _ => none
  | f + 1, i =>
    match findChar xml '<' i with
    | none => none
    | some a =>
      if xml[a + 1]? = some '/' then nextTagNSGo xml tag f (a + 1)
      else
        match findChar xml '>' (a + 1) with
        | none => none
        | some b =>
          let h2 := headTrimAttrs (substr xml (a + 1) b)
          if bareOf h2 = tag then
            let close := '<' :: '/' :: (prefOf h2 ++ tag ++ ['>'])
            match subFind xml close (b + 1) with
            | some cend => some (substr xml (b + 1) cend, cend + close.length)
            | none => nextTagNSGo xml tag f (b + 1)
          else nextTagNSGo xml tag f (b + 1)

/-- `nextTagNS` of rail.cpp (lines 610-628): sibling iteration — inner text of
the next element with local name `tag` at or after `pos`, together with the
cursor position just past its closing tag; `none` when there is no such
element (the C++ version returns `false`). -/
def nextTagNS (xml tag : List Char) (pos : Nat) : Option (List Char × Nat) :=
  nextTagNSGo xml tag (xml.length + 1) pos

/-- The head-name computation of the scanner applied at one position: the
local tag name parsed at index `a`, when `a` holds a `<` with a following
`>`.  Used to state "no tag with local name `T` appears". -/
def tagBareAt (xml : List Char) (a : Nat) : Option (List Char) :=
  if xml[a]? = some '<' then
    match findChar xml '>' (a + 1) with
    | some b => some (bareOf (headTrimAttrs (substr xml (a + 1) b)))
    | none => none
  else none

/-- The textual namespace qualifier: `p:` for a prefixed tag, empty otherwise. -/
def pfxColon (pfx : Option (List Char)) : List Char :=
  match pfx with
  | some p => p ++ [':']
  | none => []

/-- The closing tag the scanner searches for: `</pfx:T>`. -/
def closeTag (pfx : Option (List Char)) (T : List Char) : List Char :=
  '<' :: '/' :: (pfxColon pfx ++ T ++ ['>'])

/-- A namespaced element rendered to text: `<pfx:T attrs>inner</pfx:T>post`
(no colon when `pfx = none`). -/
def buildElem (pfx : Option (List Char)) (T attrs inner post : List Char) : List Char :=
  ('<' :: (pfxColon pfx ++ T ++ attrs)) ++ ('>' :: inner) ++
    ('<' :: '/' :: (pfxColon pfx ++ T)) ++ ('>' :: post)

/-- The text before a `<` at index `i0` is scan-transparent for tag `T`: every
`<` in it opens a head that closes (`>`) before `i0` and whose local name is
not `T`.  This is what lets the scanner walk over leading content without
matching and without jumping past `i0`. -/
def preScanOk (xml T : List Char) (i0 : Nat) : Bool :=
  (List.range i0).all fun a =>
    if xml[a]? = some '<' then
      match findChar xml '>' (a + 1) with
      | some b => decide (b < i0) && !(bareOf (headTrimAttrs (substr xml (a + 1) b)) == T)
      | none => false
    else true

/-! ### Service record model and board parsing (rail.cpp lines 106, 127, 312-321, 710-782) -/

/-- `ROWS` of rail.cpp (line 106): board capacity. -/
def ROWS : Nat := 8

/-- One board row (`struct Svc`, rail.cpp line 127). -/
structure Svc where
  time : List Char
  place : List Char
  est : List Char
  plat : List Char
  oper : List Char
  bus : Bool
deriving DecidableEq

/-- Per-character ASCII lowering, as Arduino `String::toLowerCase`. -/
def asciiLower (c : Char) : Char :=
  if 'A' ≤ c ∧ c ≤ 'Z' then Char.ofNat (c.toNat + 32) else c

/-- Arduino `String::toLowerCase`. -/
def lowerStr (l : List Char) : List Char := l.map asciiLower

/-- Arduino `indexOf(str) >= 0`: substring containment. -/
def containsSub (l pat : List Char) : Bool := (subFind l pat 0).isSome

/-- `normalizeOper` of rail.cpp (lines 312-321): trim, then the fixed
long-name → alias lookup; unmapped names pass through. -/
def normalizeOper (op : List Char) : List Char :=
  let t := trimStr op
  if t = "London North Eastern Railway".data then "LNER".data
  else if t = "London Northwestern Railway".data then "London Northwestern".data
  else if t = "Great Western Railway".data then "Great Western".data
  else if t = "West Midlands Trains".data then "West Midlands".data
  else if t = "South Western Railway".data then "South Western".data
  else if t = "East Midlands Railway".data then "East Midlands".data
  else t

/-- The bus-detection cascade of rail.cpp (lines 738-745), on the lowercased
(and, for platform/operator, trimmed) signal strings. -/
def busClassify (stype isBusS cat platL operL : List Char) : Bool :=
  if containsSub stype "bus".data then true
  else if isBusS = "true".data ∨ isBusS = "1".data then true
  else if containsSub cat "bus".data then true
  else if platL = "bus".data ∨ platL = "coach".data then true
  else if containsSub operL "replacement".data ∨ containsSub operL "bus".data ∨
      containsSub operL "coach".data then true
  else false

/-- One `service` element parsed into a record, mirroring the loop body of
`fetchDarwinBoard` (rail.cpp lines 714-748): field extraction, the
"On time" default for an empty estimate, entity decoding, bus
classification, and the platform clear for buses. -/
def mkSvc (dep : Bool) (svc : List Char) : Svc :=
  let time := get1ns svc (if dep then "std".data else "sta".data)
  let est0 := get1ns svc (if dep then "etd".data else "eta".data)
  let est1 := if est0 = [] then "On time".data else est0
  let plat0 := get1ns svc "platform".data
  let oper0 := normalizeOper (get1ns svc "operator".data)
  let endBlk := get1ns svc (if dep then "destination".data else "origin".data)
  let first := get1ns endBlk "location".data
  let place := htmlDecode (get1ns first "locationName".data)
  let oper := htmlDecode oper0
  let plat := htmlDecode plat0
  let est := htmlDecode est1
  let stype := lowerStr (get1ns svc "serviceType".data)
  let isBusS := lowerStr (get1ns svc "isBus".data)
  let cat := lowerStr (get1ns svc "category".data)
  let platL := trimStr (lowerStr plat)
  let operL := trimStr (lowerStr oper)
  let bus := busClassify stype isBusS cat platL operL
  { time := time, place := place, est := est,
    plat := if bus then [] else plat, oper := oper, bus := bus }

/-- Retention test of rail.cpp line 750: `v.time.length() || v.place.length()`. -/
def keepSvc (v : Svc) : Bool := !v.time.isEmpty || !v.place.isEmpty

/-- Fuel-indexed embedding of the service-collection loop of rail.cpp lines
712-751: `while ((int)services.size() < ROWS && nextTagNS(ts,"service",pos,svc))`. -/
def parseLoop (dep : Bool) (ts : List Char) : Nat → Nat → List Svc → List Svc
  | 0, _, acc => acc
  | f + 1, pos, acc =>
    if acc.length < ROWS then
      match nextTagNS ts "service".data pos with
      | some (svc, pos') =>
        let v := mkSvc dep svc
        parseLoop dep ts f pos' (if keepSvc v then acc ++ [v] else acc)
      | none => acc
    else acc

/-- The full service list built from a `trainServices` block. -/
def parseTrainServices (dep : Bool) (ts : List Char) : List Svc :=
  parseLoop dep ts (ts.length + 1) 0 []

/-- The upstream response order: the `service` inner texts in the order the
sibling iterator yields them. -/
def serviceStream (ts : List Char) : Nat → Nat → List (List Char)
  | 0, _ => []
  | f + 1, pos =>
    match nextTagNS ts "service".data pos with
    | some (svc, pos') => svc :: serviceStream ts f pos'
    | none => []

/-- Fuel-indexed embedding of the notice-collection loop of rail.cpp lines
756-781: iterate `message` elements, fall back to the raw inner text when no
`text` child exists, clean, and keep the non-empty results. -/
def parseNrccLoop (ms : List Char) : Nat → Nat → List (List Char) → List (List Char)
  | 0, _, acc => acc
  | f + 1, pos, acc =>
    match nextTagNS ms "message".data pos with
    | some (inner, pos') =>
      let txt0 := get1ns inner "text".data
      let txt := noticeClean (if txt0 = [] then inner else txt0)
      parseNrccLoop ms f pos' (if txt = [] then acc else acc ++ [txt])
    | none => acc

/-- The full notice list built from an `nrccMessages` block. -/
def parseNrcc (ms : List Char) : List (List Char) := parseNrccLoop ms (ms.length + 1) 0 []

/-! ### Fetch guard and board fetch (rail.cpp lines 24-41, 678-795) -/

/-- Reduction modulo `2^32`. -/
def u32 (n : Nat) : Nat := n % 4294967296

/-- `uint32_t` subtraction `a - b` (the `millis()` elapsed-time idiom). -/
def sub32 (a b : Nat) : Nat := (u32 a + 4294967296 - u32 b) % 4294967296

/-- The fetch-guard globals of rail.cpp lines 25-26: the binary semaphore and
`gLastFetchMs`.  Modelled under successful semaphore creation (when creation
fails the C++ guard degrades to a no-op and always admits the fetch). -/
structure GuardSt where
  semFree : Bool
  lastFetchMs : Nat
deriving DecidableEq

/-- `beginFetchGuard` of rail.cpp (lines 27-38): reject when less than
`debounceMs` has elapsed since the last admitted attempt, else reject when a
fetch is already in flight, else take the semaphore and stamp the time. -/
def beginFetchGuard (debounceMs now : Nat) (g : GuardSt) : Bool × GuardSt :=
  if sub32 now g.lastFetchMs < debounceMs then (false, g)
  else if g.semFree = false then (false, g)
  else (true, { semFree := false, lastFetchMs := u32 now })

/-- `endFetchGuard` of rail.cpp (line 39): release the semaphore. -/
def endFetchGuard (g : GuardSt) : GuardSt := { g with semFree := true }

/-- The fetch-visible application state: the two lists of rail.cpp lines
128-129, the station title (line 131), and the guard. -/
structure FetchSt where
  services : List Svc
  nrccMsgs : List (List Char)
  stationTitle : List Char
  guard : GuardSt
deriving DecidableEq

/-- `fetchDarwinBoard` of rail.cpp (lines 678-795).  The single SOAP POST is
abstracted by its observable outcome `(code, body)`; `crs` is the configured
station code; `now` is `millis()` at guard time.  Returns the success flag,
the new state, and the number of network POSTs performed. -/
def fetchDarwinBoard (dep : Bool) (now : Nat) (code : Int) (body : List Char)
    (crs : List Char) (st : FetchSt) : Bool × FetchSt × Nat :=
  let p := beginFetchGuard 800 now st.guard
  if p.1 = false then (false, { st with guard := p.2 }, 0)
  else
    -- lines 684-685: the lists are cleared before the network call
    let cleared : FetchSt := { st with guard := p.2, services := [], nrccMsgs := [] }
    if code ≠ 200 then
      (false, { cleared with guard := endFetchGuard cleared.guard }, 1)
    else
      let loc := htmlDecode (get1ns body "locationName".data)
      let title := if loc = [] then crs else loc
      let ts := get1ns body "trainServices".data
      let svcs := if ts = [] then [] else parseTrainServices dep ts
      let ms := get1ns body "nrccMessages".data
      let msgs := if ms = [] then [] else parseNrcc ms
      (true,
        { services := svcs, nrccMsgs := msgs, stationTitle := title,
          guard := endFetchGuard p.2 }, 1)

/-! ### Ticker content store (rail.cpp lines 401-471) -/

/-- `POWERED_MSG` (rail.cpp line 115). -/
def POWERED_MSG : List Char := "Powered by National Rail".data

/-- `kSep` (rail.cpp line 403). -/
def kSep : List Char := "   |   ".data

/-- `fnv1a32` of rail.cpp (line 421), folded over the characters (the strings
involved are ASCII, so one character is one byte). -/
def fnv1a32 (d : List Char) (h : Nat) : Nat :=
  d.foldl (fun h c => ((h ^^^ c.toNat) * 16777619) % 4294967296) h

/-- `hashMessages` of rail.cpp (lines 422-427): order-sensitive FNV-1a over
each message plus separator, then the "powered by" tail plus separator. -/
def hashMessages (msgs : List (List Char)) : Nat :=
  let h := msgs.foldl (fun h m => fnv1a32 kSep (fnv1a32 m h)) 2166136261
  fnv1a32 kSep (fnv1a32 POWERED_MSG h)

/-- The message list assembled by `writeTickerFileIfChanged` (rail.cpp lines
432-435): trimmed non-empty notices plus the "powered by" trailer. -/
def tickerList (nrcc : List (List Char)) : List (List Char) :=
  ((nrcc.map trimStr).filter fun v => !v.isEmpty) ++ [POWERED_MSG]

/-- Per-item cleaning at write time (rail.cpp lines 451-452): collapse double
spaces, then trim. -/
def cleanItem (s : List Char) : List Char := trimStr (collapseSpaces s)

/-- The byte content written to the ticker file (rail.cpp lines 449-460):
each cleaned item followed by the separator. -/
def renderTicker (list : List (List Char)) : List Char :=
  (list.map fun s => cleanItem s ++ kSep).flatten

/-- The ticker filesystem: the live file `/ticker.txt`, the temporary file
`/ticker.tmp`, and the hash slot `/ticker.meta`. -/
structure TickFS where
  ticker : Option (List Char)
  tmp : Option (List Char)
  meta : Option Nat
deriving DecidableEq

/-- Injected failure point for `writeTickerFileIfChanged`: no failure, the
temp-file open failing (rail.cpp line 445), or the rename failing
(rail.cpp line 464). -/
inductive WriteFail where
  | ok
  | tmpOpen
  | rename
deriving DecidableEq

/-- `writeTickerFileIfChanged` of rail.cpp (lines 431-471): hash the current
notice content, skip when the persisted hash matches, otherwise write the
temp file, `remove` the live file, `rename` the temp file over it, and
persist the hash.  Returns the changed flag, the filesystem, and the number
of content writes performed. -/
def writeTickerFileIfChanged (fs : TickFS) (nrcc : List (List Char)) (f : WriteFail) :
    Bool × TickFS × Nat :=
  let list := tickerList nrcc
  let want := hashMessages list
  if fs.meta = some want then (false, fs, 0)
  else if f = WriteFail.tmpOpen then (false, fs, 0)
  else
    let content := renderTicker list
    -- tmp written and closed, then the live file is removed (line 463)
    let fs2 : TickFS := { fs with tmp := some content, ticker := none }
    if f = WriteFail.rename then (false, fs2, 1)
    else (true, { ticker := some content, tmp := none, meta := some want }, 1)

/-! ### Characterization lemmas for the scanning primitives -/

theorem isPrefixOf_append (u v : List Char) : u.isPrefixOf (u ++ v) = true := by
  induction u with
  | nil => simp [List.isPrefixOf]
  | cons c cs ih => simp [List.isPrefixOf, ih]

theorem findCharAux_eq_some (c : Char) (m : List Char) (i k : Nat)
    (hk : m[k]? = some c) (hmin : ∀ j, j < k → m[j]? ≠ some c) :
    findCharAux c m i = some (i + k) := by
  induction m generalizing i k with
  | nil => simp at hk
  | cons x xs ih =>
    cases k with
    | zero =>
      simp only [List.getElem?_cons_zero, Option.some.injEq] at hk
      simp [findCharAux, hk]
    | succ k' =>
      simp only [List.getElem?_cons_succ] at hk
      have hx : ¬(x = c) := by
        intro hxc
        exact hmin 0 (Nat.succ_pos _) (by simp [hxc])
      have hrec := ih (i + 1) k' hk (fun j hj => by
        have := hmin (j + 1) (Nat.succ_lt_succ hj)
        simpa using this)
      rw [findCharAux, if_neg hx, hrec]
      congr 1
      omega

theorem findCharAux_some (c : Char) (m : List Char) (i j : Nat)
    (h : findCharAux c m i = some j) :
    ∃ k, j = i + k ∧ k < m.length ∧ m[k]? = some c ∧ ∀ j', j' < k → m[j']? ≠ some c := by
  induction m generalizing i j with
  | nil => simp [findCharAux] at h
  | cons x xs ih =>
    rw [findCharAux] at h
    by_cases hx : x = c
    · rw [if_pos hx] at h
      have hj : j = i := by
        have := Option.some.inj h
        omega
      exact ⟨0, by omega, by simp, by simp [hx], fun j' hj' => absurd hj' (Nat.not_lt_zero _)⟩
    · rw [if_neg hx] at h
      obtain ⟨k, hk1, hk2, hk3, hk4⟩ := ih (i + 1) j h
      refine ⟨k + 1, by omega, by simpa using hk2, by simpa using hk3, ?_⟩
      intro j' hj'
      cases j' with
      | zero => simpa using hx
      | succ j'' => simpa using hk4 j'' (by omega)

theorem findChar_eq_some (l : List Char) (c : Char) (i j : Nat)
    (hij : i ≤ j) (hj : l[j]? = some c)
    (hmin : ∀ k, i ≤ k → k < j → l[k]? ≠ some c) :
    findChar l c i = some j := by
  unfold findChar
  have hk : (l.drop i)[j - i]? = some c := by
    rw [List.getElem?_drop]
    rwa [Nat.add_sub_cancel' hij]
  have := findCharAux_eq_some c (l.drop i) i (j - i) hk (fun j' hj' => by
    rw [List.getElem?_drop]
    exact hmin (i + j') (Nat.le_add_right _ _) (by omega))
  rwa [Nat.add_sub_cancel' hij] at this

theorem findChar_some (l : List Char) (c : Char) (i j : Nat)
    (h : findChar l c i = some j) :
    i ≤ j ∧ j < l.length ∧ l[j]? = some c ∧ ∀ k, i ≤ k → k < j → l[k]? ≠ some c := by
  unfold findChar at h
  obtain ⟨k, hk1, hk2, hk3, hk4⟩ := findCharAux_some c (l.drop i) i j h
  rw [List.getElem?_drop] at hk3
  have hlen : (l.drop i).length = l.length - i := List.length_drop i l
  refine ⟨by omega, by omega, by rwa [hk1], ?_⟩
  intro p hip hpj
  have := hk4 (p - i) (by omega)
  rw [List.getElem?_drop, Nat.add_sub_cancel' hip] at this
  exact this

theorem findCharAux_ne_none (c : Char) (m : List Char) (i k : Nat)
    (hk : m[k]? = some c) : findCharAux c m i ≠ none := by
  induction m generalizing i k with
  | nil => simp at hk
  | cons x xs ih =>
    rw [findCharAux]
    by_cases hx : x = c
    · simp [hx]
    · rw [if_neg hx]
      cases k with
      | zero => simp only [List.getElem?_cons_zero, Option.some.injEq] at hk; exact absurd hk hx
      | succ k' => exact ih (i + 1) k' (by simpa using hk)

theorem findChar_ne_none (l : List Char) (c : Char) (i j : Nat)
    (hij : i ≤ j) (hj : l[j]? = some c) : findChar l c i ≠ none := by
  unfold findChar
  apply findCharAux_ne_none c _ i (j - i)
  rw [List.getElem?_drop, Nat.add_sub_cancel' hij]
  exact hj

theorem findCharAux_eq_none (c : Char) (m : List Char) (i : Nat) (h : c ∉ m) :
    findCharAux c m i = none := by
  induction m generalizing i with
  | nil => rfl
  | cons x xs ih =>
    rw [findCharAux, if_neg (by intro hx; exact h (hx ▸ List.mem_cons_self x xs))]
    exact ih (i + 1) fun hm => h (List.mem_cons_of_mem x hm)

theorem findChar_none_of_not_mem (l : List Char) (c : Char) (h : c ∉ l) :
    findChar l c 0 = none := by
  unfold findChar
  rw [List.drop_zero]
  exact findCharAux_eq_none c _ 0 h

theorem subFindAux_eq_some (pat m : List Char) (i k : Nat)
    (hk : k < m.length) (hpre : pat.isPrefixOf (m.drop k) = true)
    (hmin : ∀ j, j < k → pat.isPrefixOf (m.drop j) = false) :
    subFindAux pat m i = some (i + k) := by
  induction m generalizing i k with
  | nil => simp at hk
  | cons x xs ih =>
    cases k with
    | zero =>
      rw [List.drop_zero] at hpre
      simp [subFindAux, hpre]
    | succ k' =>
      have hx : pat.isPrefixOf (x :: xs) = false := by
        have := hmin 0 (Nat.succ_pos _)
        rwa [List.drop_zero] at this
      rw [subFindAux, if_neg (by simp [hx])]
      have hrec := ih (i + 1) k' (by simpa using hk) (by simpa using hpre)
        (fun j hj => by simpa using hmin (j + 1) (Nat.succ_lt_succ hj))
      rw [hrec]
      congr 1
      omega

theorem subFind_eq_some (l pat : List Char) (i j : Nat)
    (hij : i ≤ j) (hj : j < l.length)
    (hpre : pat.isPrefixOf (l.drop j) = true)
    (hmin : ∀ k, i ≤ k → k < j → pat.isPrefixOf (l.drop k) = false) :
    subFind l pat i = some j := by
  unfold subFind
  have hlen : (l.drop i).length = l.length - i := List.length_drop i l
  have hdd : ∀ n, (l.drop i).drop n = l.drop (i + n) := fun n => by
    rw [List.drop_drop]
  have := subFindAux_eq_some pat (l.drop i) i (j - i) (by omega)
    (by rw [hdd, Nat.add_sub_cancel' hij]; exact hpre)
    (fun k hk => by
      rw [hdd]
      exact hmin (i + k) (Nat.le_add_right _ _) (by omega))
  rwa [Nat.add_sub_cancel' hij] at this

/-- Middle-slice extraction: `substring` of the region occupied by `X` inside
`A ++ X ++ B` returns `X`. -/
theorem substr_mid (A X B : List Char) :
    substr (A ++ (X ++ B)) A.length (A.length + X.length) = X := by
  unfold substr
  rw [List.take_append, List.take_left, List.drop_left]

theorem getElem_at_append (A B : List Char) (x : Char) : (A ++ x :: B)[A.length]? = some x := by
  rw [List.getElem?_append_right (Nat.le_refl _)]
  simp

theorem mem_of_getElem_some (l : List Char) (k : Nat) (c : Char) (h : l[k]? = some c) :
    c ∈ l := by
  obtain ⟨hk, he⟩ := List.getElem?_eq_some.mp h
  exact he ▸ List.getElem_mem hk

/-- The name-parsing of a space-free, colon-qualified head: the local name is
the tag and the retained qualifier is the `p:` part. -/
theorem bareOf_pfx (pfx : Option (List Char)) (T : List Char)
    (hT2 : ∀ c ∈ T, c ≠ '>' ∧ c ≠ ' ' ∧ c ≠ ':')
    (hPfx : ∀ p, pfx = some p → ∀ c ∈ p, c ≠ '>' ∧ c ≠ ' ' ∧ c ≠ ':') :
    bareOf (pfxColon pfx ++ T) = T ∧ prefOf (pfxColon pfx ++ T) = pfxColon pfx := by
  cases pfx with
  | none =>
    simp only [pfxColon, List.nil_append]
    have hnone : findChar T ':' 0 = none :=
      findChar_none_of_not_mem T ':' fun hm => (hT2 ':' hm).2.2 rfl
    constructor
    · rw [bareOf, hnone]
    · rw [prefOf, hnone]
  | some p =>
    simp only [pfxColon]
    have hassoc : (p ++ [':']) ++ T = p ++ (':' :: T) := by simp
    have hfind : findChar ((p ++ [':']) ++ T) ':' 0 = some p.length := by
      rw [hassoc]
      apply findChar_eq_some _ _ _ _ (Nat.zero_le _) (getElem_at_append p (T) ':')
      intro k _ hk
      rw [List.getElem?_append_left hk]
      intro hc
      exact (hPfx p rfl ':' (mem_of_getElem_some p k ':' hc)).2.2 rfl
    have hlen : p.length + 1 = (p ++ [':']).length := by simp
    constructor
    · rw [bareOf, hfind]
      show List.drop (p.length + 1) ((p ++ [':']) ++ T) = T
      rw [hlen, List.drop_left]
    · rw [prefOf, hfind]
      show List.take (p.length + 1) ((p ++ [':']) ++ T) = p ++ [':']
      rw [hlen, List.take_left]

/-- Attribute trimming of a well-formed head: the space-delimited first word
of `pfx:T attrs` is `pfx:T`. -/
theorem headTrimAttrs_elem (pfx : Option (List Char)) (T attrs : List Char)
    (hT2 : ∀ c ∈ T, c ≠ '>' ∧ c ≠ ' ' ∧ c ≠ ':')
    (hPfx : ∀ p, pfx = some p → ∀ c ∈ p, c ≠ '>' ∧ c ≠ ' ' ∧ c ≠ ':')
    (hA2 : attrs = [] ∨ attrs.head? = some ' ') :
    headTrimAttrs (pfxColon pfx ++ T ++ attrs) = pfxColon pfx ++ T := by
  have hnospace : ∀ c ∈ pfxColon pfx ++ T, c ≠ ' ' := by
    intro c hc
    rcases List.mem_append.mp hc with hc | hc
    · cases pfx with
      | none => simp [pfxColon] at hc
      | some p =>
        simp only [pfxColon] at hc
        rcases List.mem_append.mp hc with hc | hc
        · exact (hPfx p rfl c hc).2.1
        · simp at hc
          simp [hc]
    · exact (hT2 c hc).2.1
  rcases hA2 with hA2 | hA2
  · subst hA2
    rw [List.append_nil]
    rw [headTrimAttrs, findChar_none_of_not_mem _ ' ' fun hm => hnospace ' ' hm rfl]
  · cases attrs with
    | nil => simp at hA2
    | cons a arest =>
      simp only [List.head?_cons, Option.some.injEq] at hA2
      subst hA2
      have hfind : findChar (pfxColon pfx ++ T ++ (' ' :: arest)) ' ' 0 =
          some (pfxColon pfx ++ T).length := by
        apply findChar_eq_some _ _ _ _ (Nat.zero_le _) (getElem_at_append _ _ ' ')
        intro k _ hk
        rw [List.getElem?_append_left hk]
        intro hc
        exact hnospace ' ' (mem_of_getElem_some _ k ' ' hc) rfl
      rw [headTrimAttrs, hfind]
      show List.take (pfxColon pfx ++ T).length ((pfxColon pfx ++ T) ++ (' ' :: arest)) =
        pfxColon pfx ++ T
      rw [List.take_left]

/-- Core element extraction: with the scan positioned exactly on the
element's `<`, one iteration of `get1nsGo` parses the head, matches the local
name, finds the closing tag and returns the inner text — for any remaining
fuel. -/
theorem get1nsGo_elem_step (pre : List Char) (pfx : Option (List Char))
    (T attrs inner post : List Char)
    (hT2 : ∀ c ∈ T, c ≠ '>' ∧ c ≠ ' ' ∧ c ≠ ':')
    (hPfx : ∀ p, pfx = some p → ∀ c ∈ p, c ≠ '>' ∧ c ≠ ' ' ∧ c ≠ ':')
    (hA1 : ∀ c ∈ attrs, c ≠ '>')
    (hA2 : attrs = [] ∨ attrs.head? = some ' ')
    (hClose : ∀ i, i < inner.length →
      (closeTag pfx T).isPrefixOf ((inner ++ (closeTag pfx T ++ post)).drop i) = false)
    (f : Nat) :
    get1nsGo (pre ++ buildElem pfx T attrs inner post) T (f + 1) pre.length = inner := by
  set xml := pre ++ buildElem pfx T attrs inner post with hxml
  set hd := pfxColon pfx ++ T ++ attrs with hhd
  set i0 := pre.length with hi0
  have hx0 : xml = pre ++ '<' :: (hd ++ ('>' :: (inner ++ (closeTag pfx T ++ post)))) := by
    simp [hxml, hhd, buildElem, closeTag, List.append_assoc]
  have hx1 : xml = (pre ++ ['<']) ++ (hd ++ ('>' :: (inner ++ (closeTag pfx T ++ post)))) := by
    rw [hx0]
    simp
  have hx2 : xml = (pre ++ '<' :: hd) ++ ('>' :: (inner ++ (closeTag pfx T ++ post))) := by
    rw [hx0]
    simp
  have hx3 : xml = ((pre ++ '<' :: hd) ++ ['>']) ++ (inner ++ (closeTag pfx T ++ post)) := by
    rw [hx2]
    simp
  have hHdGt : ∀ c ∈ hd, c ≠ '>' := by
    intro c hc
    rw [hhd, List.append_assoc] at hc
    rcases List.mem_append.mp hc with hc | hc
    · cases pfx with
      | none => simp [pfxColon] at hc
      | some p =>
        simp only [pfxColon] at hc
        rcases List.mem_append.mp hc with hc | hc
        · exact (hPfx p rfl c hc).1
        · simp at hc
          simp [hc]
    · rcases List.mem_append.mp hc with hc | hc
      · exact (hT2 c hc).1
      · exact hA1 c hc
  -- step 1: the scan finds the opening angle at i0
  have s1 : xml[i0]? = some '<' := by
    rw [hx0, hi0]
    exact getElem_at_append pre _ '<'
  have s2 : findChar xml '<' i0 = some i0 :=
    findChar_eq_some xml '<' i0 i0 (Nat.le_refl _) s1 (fun k h1 h2 => absurd h1 (by omega))
  -- step 2: the head ends at the first closing angle
  have e2 : (pre ++ '<' :: hd).length = i0 + 1 + hd.length := by
    simp only [List.length_append, List.length_cons, hi0]
    omega
  have s3 : xml[i0 + 1 + hd.length]? = some '>' := by
    have := getElem_at_append (pre ++ '<' :: hd) (inner ++ (closeTag pfx T ++ post)) '>'
    rw [← hx2, e2] at this
    exact this
  have hmem_hd : ∀ k, i0 + 1 ≤ k → k < i0 + 1 + hd.length → ∀ c, xml[k]? = some c → c ∈ hd := by
    intro k hk1 hk2 c hc
    rw [hx2] at hc
    rw [List.getElem?_append_left (by omega : k < (pre ++ '<' :: hd).length)] at hc
    rw [List.getElem?_append_right (by omega : pre.length ≤ k)] at hc
    have hk1' : pre.length + 1 ≤ k := by rw [hi0] at hk1; exact hk1
    have hk3 : k - pre.length = (k - pre.length - 1) + 1 := by omega
    rw [hk3, List.getElem?_cons_succ] at hc
    exact mem_of_getElem_some hd _ c hc
  have s4 : findChar xml '>' (i0 + 1) = some (i0 + 1 + hd.length) := by
    apply findChar_eq_some xml '>' (i0 + 1) (i0 + 1 + hd.length) (by omega) s3
    intro k hk1 hk2 hc
    exact hHdGt '>' (hmem_hd k hk1 hk2 '>' hc) rfl
  -- step 3: the head slice is exactly `pfx:T attrs`
  have s5 : substr xml (i0 + 1) (i0 + 1 + hd.length) = hd := by
    have := substr_mid (pre ++ ['<']) hd ('>' :: (inner ++ (closeTag pfx T ++ post)))
    rw [← hx1] at this
    have e1 : (pre ++ ['<']).length = i0 + 1 := by
      simp only [List.length_append, List.length_cons, List.length_nil, hi0]
    rw [e1] at this
    exact this
  -- step 4: head parsing yields the bare name `T` and qualifier `pfx:`
  have htr : headTrimAttrs hd = pfxColon pfx ++ T := by
    rw [hhd]
    exact headTrimAttrs_elem pfx T attrs hT2 hPfx hA2
  have hbare := bareOf_pfx pfx T hT2 hPfx
  -- step 5: the closing tag is found right after the inner text
  have hctlen : 0 < (closeTag pfx T).length := by simp [closeTag]
  have e3 : ((pre ++ '<' :: hd) ++ ['>']).length = i0 + 1 + hd.length + 1 := by
    simp only [List.length_append, List.length_cons, List.length_nil, hi0]
    omega
  have hxlen : xml.length =
      i0 + 1 + hd.length + 1 + (inner.length + ((closeTag pfx T).length + post.length)) := by
    rw [hx3]
    simp only [List.length_append, e3]
  have hdropj : ∀ m, xml.drop (i0 + 1 + hd.length + 1 + m) =
      (inner ++ (closeTag pfx T ++ post)).drop m := by
    intro m
    rw [hx3, ← e3, List.drop_append]
  have s6 : subFind xml ('<' :: '/' :: (pfxColon pfx ++ T ++ ['>'])) (i0 + 1 + hd.length + 1) =
      some (i0 + 1 + hd.length + 1 + inner.length) := by
    have hclform : ('<' :: '/' :: (pfxColon pfx ++ T ++ ['>'])) = closeTag pfx T := rfl
    rw [hclform]
    apply subFind_eq_some xml (closeTag pfx T) _ _ (by omega) (by omega)
    · rw [hdropj inner.length, List.drop_left]
      exact isPrefixOf_append _ _
    · intro k hk1 hk2
      have hm : k = i0 + 1 + hd.length + 1 + (k - (i0 + 1 + hd.length + 1)) := by omega
      rw [hm, hdropj]
      exact hClose _ (by omega)
  -- step 6: the returned slice is the inner text
  have s7 : substr xml (i0 + 1 + hd.length + 1) (i0 + 1 + hd.length + 1 + inner.length) =
      inner := by
    have := substr_mid ((pre ++ '<' :: hd) ++ ['>']) inner (closeTag pfx T ++ post)
    rw [← hx3, e3] at this
    exact this
  -- assemble the single iteration
  simp only [get1nsGo, s2, s4, s5, htr, hbare.1, hbare.2, s6, s7, if_true, eq_self_iff_true]

/-- Scan traversal: when every `<` before `i0` opens a head that closes
before `i0` and does not carry local name `T`, the scanner started anywhere
at or before `i0` computes the same result it computes from `i0`. -/
theorem get1nsGo_reach (xml T : List Char) (i0 : Nat) (res : List Char)
    (hpre : preScanOk xml T i0 = true) (hi0 : xml[i0]? = some '<')
    (hstep : ∀ f, get1nsGo xml T (f + 1) i0 = res) :
    ∀ fuel pos, pos ≤ i0 → i0 < fuel + pos → get1nsGo xml T fuel pos = res := by
  intro fuel
  induction fuel with
  | zero =>
    intro pos h1 h2
    omega
  | succ f ih =>
    intro pos h1 h2
    by_cases hpos : pos = i0
    · subst hpos
      exact hstep f
    · have hlt : pos < i0 := by omega
      cases ha : findChar xml '<' pos with
      | none => exact absurd ha (findChar_ne_none xml '<' pos i0 (by omega) hi0)
      | some a =>
        obtain ⟨hpa, halen, haget, hamin⟩ := findChar_some xml '<' pos a ha
        have ha_le : a ≤ i0 := by
          by_contra hgt
          exact hamin i0 (by omega) (by omega) hi0
        by_cases hae : a = i0
        · subst hae
          have hfirst : findChar xml '<' a = some a :=
            findChar_eq_some xml '<' a a (Nat.le_refl _) haget (fun k hk1 hk2 => by omega)
          have hthis := hstep f
          rw [get1nsGo, hfirst] at hthis
          rw [get1nsGo, ha]
          exact hthis
        · have halt : a < i0 := by omega
          have hp := List.all_eq_true.mp hpre a (List.mem_range.mpr halt)
          rw [if_pos haget] at hp
          cases hb : findChar xml '>' (a + 1) with
          | none =>
            rw [hb] at hp
            simp at hp
          | some b =>
            rw [hb] at hp
            obtain ⟨hblt, hbne⟩ := Bool.and_eq_true_iff.mp hp
            have hblt' : b < i0 := of_decide_eq_true hblt
            have hbne' : bareOf (headTrimAttrs (substr xml (a + 1) b)) ≠ T := by
              simpa using hbne
            have hab : a + 1 ≤ b := (findChar_some xml '>' (a + 1) b hb).1
            simp only [get1nsGo, ha, hb]
            rw [if_neg hbne']
            exact ih (b + 1) (by omega) (by omega)

/-- When no position of `xml` parses to a head with local name `tag`, the
single-tag scan returns the empty string for every fuel and start position. -/
theorem get1nsGo_notag (xml tag : List Char)
    (h : ∀ a, a < xml.length → tagBareAt xml a ≠ some tag) :
    ∀ fuel pos, get1nsGo xml tag fuel pos = [] := by
  intro fuel
  induction fuel with
  | zero => intro pos; rfl
  | succ f ih =>
    intro pos
    cases ha : findChar xml '<' pos with
    | none => simp [get1nsGo, ha]
    | some a =>
      obtain ⟨_, halen, haget, _⟩ := findChar_some xml '<' pos a ha
      cases hb : findChar xml '>' (a + 1) with
      | none => simp [get1nsGo, ha, hb]
      | some b =>
        have hbne : bareOf (headTrimAttrs (substr xml (a + 1) b)) ≠ tag := by
          have := h a halen
          rw [tagBareAt, if_pos haget, hb] at this
          intro he
          apply this
          show some (bareOf (headTrimAttrs (substr xml (a + 1) b))) = some tag
          rw [he]
        simp only [get1nsGo, ha, hb]
        rw [if_neg hbne]
        exact ih (b + 1)

/-- When no position of `xml` parses to a head with local name `tag`, sibling
iteration fails for every fuel and start position. -/
theorem nextTagNSGo_notag (xml tag : List Char)
    (h : ∀ a, a < xml.length → tagBareAt xml a ≠ some tag) :
    ∀ fuel pos, nextTagNSGo xml tag fuel pos = none := by
  intro fuel
  induction fuel with
  | zero => intro pos; rfl
  | succ f ih =>
    intro pos
    cases ha : findChar xml '<' pos with
    | none => simp [nextTagNSGo, ha]
    | some a =>
      obtain ⟨_, halen, haget, _⟩ := findChar_some xml '<' pos a ha
      by_cases hsl : xml[a + 1]? = some '/'
      · simp only [nextTagNSGo, ha, if_pos hsl]
        exact ih (a + 1)
      · cases hb : findChar xml '>' (a + 1) with
        | none => simp [nextTagNSGo, ha, hb, hsl]
        | some b =>
          have hbne : bareOf (headTrimAttrs (substr xml (a + 1) b)) ≠ tag := by
            have := h a halen
            rw [tagBareAt, if_pos haget, hb] at this
            intro he
            apply this
            show some (bareOf (headTrimAttrs (substr xml (a + 1) b))) = some tag
            rw [he]
          simp only [nextTagNSGo, ha, if_neg hsl, hb]
          rw [if_neg hbne]
          exact ih (b + 1)

/-! ### Trim lemmas for the notice pipeline -/

theorem trimLeft_head_not_space (l : List Char) :
    trimLeft l = [] ∨ ∃ c cs, trimLeft l = c :: cs ∧ isSpaceB c = false := by
  induction l with
  | nil => exact Or.inl rfl
  | cons c cs ih =>
    by_cases hc : isSpaceB c = true
    · rw [trimLeft, if_pos hc]
      exact ih
    · rw [trimLeft, if_neg hc]
      exact Or.inr ⟨c, cs, rfl, by revert hc; cases isSpaceB c <;> simp⟩

theorem trimRight_cons (c : Char) (cs : List Char) :
    trimRight (c :: cs) = [] ∨ ∃ cs2, trimRight (c :: cs) = c :: cs2 := by
  simp only [trimRight]
  split
  · exact Or.inl rfl
  · exact Or.inr ⟨trimRight cs, rfl⟩

theorem trimRight_last_not_space (l : List Char) (x : Char) (hx : isSpaceB x = false) :
    trimRight (l ++ [x]) = l ++ [x] := by
  induction l with
  | nil =>
    rw [List.nil_append, trimRight]
    simp [trimRight, hx]
  | cons d ds ih =>
    rw [List.cons_append, trimRight]
    have hne : ds ++ [x] ≠ [] := by simp
    rw [ih]
    simp [hne]

theorem trimLeft_of_head_not_space (c : Char) (cs : List Char) (hc : isSpaceB c = false) :
    trimLeft (c :: cs) = c :: cs := by
  rw [trimLeft, if_neg (by simp [hc])]

/-- The composite trim applied to a prefix (up to an included `'.'`) of an
already-trimmed string is the identity: the head is not whitespace and the
last character is the kept terminator. -/
theorem keepFirstSentence_eq_spec (u : List Char) :
    keepFirstSentence (trimStr u) = specFirstSentence (trimStr u) := by
  rw [keepFirstSentence, specFirstSentence]
  cases hf : findChar (trimStr u) '.' 0 with
  | none => rfl
  | some i =>
    obtain ⟨-, hilen, hidx, -⟩ := findChar_some (trimStr u) '.' 0 i hf
    show trimStr (substr (trimStr u) 0 (i + 1)) = substr (trimStr u) 0 (i + 1)
    -- the truncated slice
    have hsub : substr (trimStr u) 0 (i + 1) = (trimStr u).take (i + 1) := by
      rw [substr, List.drop_zero]
    rw [hsub]
    -- it decomposes as (take i) ++ ['.']
    have htake : (trimStr u).take (i + 1) = (trimStr u).take i ++ ['.'] := by
      rw [List.take_succ, hidx]
      rfl
    -- the trimmed string starts with a non-space character
    have hhead : ∃ c cs, trimStr u = c :: cs ∧ isSpaceB c = false := by
      rcases trimLeft_head_not_space u with h0 | ⟨c, cs, hcs, hc⟩
      · exfalso
        have hempty : trimStr u = [] := by rw [trimStr, h0]; rfl
        rw [hempty] at hilen
        simp at hilen
      · rcases trimRight_cons c cs with h1 | ⟨cs2, h1⟩
        · exfalso
          have hempty : trimStr u = [] := by rw [trimStr, hcs, h1]
          rw [hempty] at hilen
          simp at hilen
        · exact ⟨c, cs2, by rw [trimStr, hcs, h1], hc⟩
    obtain ⟨c, cs, hcons, hc⟩ := hhead
    -- trim of the slice is the identity
    have hi1 : 1 ≤ i + 1 := by omega
    have hhead2 : ∃ ds, (trimStr u).take (i + 1) = c :: ds := by
      rw [hcons]
      cases i with
      | zero => exact ⟨[], rfl⟩
      | succ j => exact ⟨cs.take (j + 1), rfl⟩
    obtain ⟨ds, hds⟩ := hhead2
    have hdot : isSpaceB '.' = false := by decide
    rw [trimStr]
    rw [hds, trimLeft_of_head_not_space c ds (by simpa using hc), ← hds, htake,
      trimRight_last_not_space _ '.' hdot, ← htake]

/-- The source notice pipeline coincides with the spec-worded pipeline whose
sentence terminator is `'.'` alone. -/
theorem noticeClean_eq_spec (s : List Char) : noticeClean s = specNoticeClean s := by
  rw [noticeClean, specNoticeClean]
  exact keepFirstSentence_eq_spec _

/-! ### Board-list characterization -/

/-- The service-collection loop is: map the upstream stream through the record
builder, keep the retained records, and take up to the remaining capacity. -/
theorem parseLoop_eq (dep : Bool) (ts : List Char) :
    ∀ fuel pos acc, parseLoop dep ts fuel pos acc =
      acc ++ (((serviceStream ts fuel pos).map (mkSvc dep)).filter keepSvc).take
        (ROWS - acc.length) := by
  intro fuel
  induction fuel with
  | zero =>
    intro pos acc
    simp [parseLoop, serviceStream]
  | succ f ih =>
    intro pos acc
    by_cases hlen : acc.length < ROWS
    · cases hn : nextTagNS ts "service".data pos with
      | none =>
        simp [parseLoop, serviceStream, hn, hlen]
      | some pr =>
        obtain ⟨svc, pos2⟩ := pr
        by_cases hk : keepSvc (mkSvc dep svc) = true
        · have lhs : parseLoop dep ts (f + 1) pos acc =
              parseLoop dep ts f pos2 (acc ++ [mkSvc dep svc]) := by
            simp [parseLoop, hn, hlen, hk]
          rw [lhs, ih]
          have hlen2 : (acc ++ [mkSvc dep svc]).length = acc.length + 1 := by simp
          rw [hlen2]
          have rhs : ((serviceStream ts (f + 1) pos).map (mkSvc dep)).filter keepSvc =
              mkSvc dep svc :: ((serviceStream ts f pos2).map (mkSvc dep)).filter keepSvc := by
            simp [serviceStream, hn, hk]
          rw [rhs]
          have harith : ROWS - acc.length = (ROWS - (acc.length + 1)) + 1 := by omega
          rw [harith, List.take_succ_cons, List.append_assoc]
          rfl
        · have hk2 : keepSvc (mkSvc dep svc) = false := by
            revert hk
            cases keepSvc (mkSvc dep svc) <;> simp
          have lhs : parseLoop dep ts (f + 1) pos acc = parseLoop dep ts f pos2 acc := by
            simp [parseLoop, hn, hlen, hk2]
          rw [lhs, ih]
          have rhs : ((serviceStream ts (f + 1) pos).map (mkSvc dep)).filter keepSvc =
              ((serviceStream ts f pos2).map (mkSvc dep)).filter keepSvc := by
            simp [serviceStream, hn, hk2]
          rw [rhs]
    · have harith : ROWS - acc.length = 0 := by omega
      simp [parseLoop, hlen, harith]

/-! ### Guard and fetch helper lemmas -/

theorem sub32_u32 (a b : Nat) : sub32 a (u32 b) = sub32 a b := by
  unfold sub32 u32
  omega

theorem beginFetchGuard_true_eq (now : Nat) (g : GuardSt)
    (h : (beginFetchGuard 800 now g).1 = true) :
    beginFetchGuard 800 now g = (true, ⟨false, u32 now⟩) := by
  unfold beginFetchGuard at h ⊢
  by_cases h1 : sub32 now g.lastFetchMs < 800
  · rw [if_pos h1] at h
    simp at h
  · rw [if_neg h1] at h ⊢
    by_cases h2 : g.semFree = false
    · rw [if_pos h2] at h
      simp at h
    · rw [if_neg h2] at h ⊢

theorem beginFetchGuard_false_eq (d now : Nat) (g : GuardSt)
    (h : (beginFetchGuard d now g).1 = false) :
    beginFetchGuard d now g = (false, g) := by
  unfold beginFetchGuard at h ⊢
  by_cases h1 : sub32 now g.lastFetchMs < d
  · rw [if_pos h1]
  · rw [if_neg h1] at h ⊢
    by_cases h2 : g.semFree = false
    · rw [if_pos h2]
    · rw [if_neg h2] at h
      simp at h

/-- On any admitted fetch, exactly one network POST happens and the guard is
left released with the admission time stamped. -/
theorem fetch_admitted (dep : Bool) (now : Nat) (code : Int) (body crs : List Char)
    (st : FetchSt) (h : (beginFetchGuard 800 now st.guard).1 = true) :
    (fetchDarwinBoard dep now code body crs st).2.2 = 1 ∧
    (fetchDarwinBoard dep now code body crs st).2.1.guard = ⟨true, u32 now⟩ := by
  have hg := beginFetchGuard_true_eq now st.guard h
  unfold fetchDarwinBoard
  rw [hg]
  simp only [Prod.fst, Prod.snd]
  rw [if_neg (by simp)]
  by_cases hc : code ≠ 200
  · rw [if_pos hc]
    exact ⟨rfl, rfl⟩
  · rw [if_neg hc]
    exact ⟨rfl, rfl⟩

/-- A fetch rejected by the guard returns false, performs no network call and
leaves the whole state unchanged. -/
theorem fetch_rejected (dep : Bool) (now : Nat) (code : Int) (body crs : List Char)
    (st : FetchSt) (h : (beginFetchGuard 800 now st.guard).1 = false) :
    fetchDarwinBoard dep now code body crs st = (false, st, 0) := by
  have hg := beginFetchGuard_false_eq 800 now st.guard h
  unfold fetchDarwinBoard
  rw [hg]
  simp

/-- The bus cascade triggers whenever the category signal contains "bus",
whatever the other signals hold. -/
theorem busClassify_of_cat (stype isBusS cat platL operL : List Char)
    (h : containsSub cat "bus".data = true) :
    busClassify stype isBusS cat platL operL = true := by
  unfold busClassify
  rw [h]
  simp

/-! ### Claim theorems -/

/-- C8: every parsed service whose `category` field contains "bus"
(case-insensitively, e.g. `category="bus replacement"`) classifies as a bus,
and its platform field is empty after classification regardless of the
platform value supplied upstream.  The theorem needs no "no other bus
signal" hypothesis: the category test alone already forces the
classification, so the claim follows a fortiori. -/
theorem c8_bus_category_clears_platform (dep : Bool) (svc : List Char)
    (h : containsSub (lowerStr (get1ns svc "category".data)) "bus".data = true) :
    (mkSvc dep svc).bus = true ∧ (mkSvc dep svc).plat = [] := by
  have hb := busClassify_of_cat
    (lowerStr (get1ns svc "serviceType".data))
    (lowerStr (get1ns svc "isBus".data))
    (lowerStr (get1ns svc "category".data))
    (trimStr (lowerStr (htmlDecode (get1ns svc "platform".data))))
    (trimStr (lowerStr (htmlDecode (normalizeOper (get1ns svc "operator".data))))) h
  unfold mkSvc
  simp [hb]

/-- Witness for C8: a concrete arrivals-mode service element with
`category` "Bus replacement" and upstream platform "2". -/
theorem c8_witness :
    containsSub (lowerStr (get1ns
      "<category>Bus replacement</category><platform>2</platform>".data "category".data))
      "bus".data = true ∧
    ((mkSvc true "<category>Bus replacement</category><platform>2</platform>".data).bus = true ∧
      (mkSvc true "<category>Bus replacement</category><platform>2</platform>".data).plat = []) :=
  ⟨by decide, c8_bus_category_clears_platform true
    "<category>Bus replacement</category><platform>2</platform>".data (by decide)⟩

/-- C10: a service element whose estimate tag (`etd` for departures, `eta`
for arrivals) is absent or empty yields a record whose estimate field is the
literal "On time". -/
theorem c10_missing_estimate_is_on_time (dep : Bool) (svc : List Char)
    (h : get1ns svc (if dep then "etd".data else "eta".data) = []) :
    (mkSvc dep svc).est = "On time".data := by
  unfold mkSvc
  rw [h]
  simp only [if_pos rfl]
  show htmlDecode "On time".data = "On time".data
  decide

/-- Witness for C10: a departures service element with no `etd` tag. -/
theorem c10_witness :
    get1ns "<std>10:00</std>".data (if true then "etd".data else "eta".data) = [] ∧
    (mkSvc true "<std>10:00</std>".data).est = "On time".data :=
  ⟨by decide, c10_missing_estimate_is_on_time true "<std>10:00</std>".data (by decide)⟩

/-- C9: after a successful fetch the service list retains only records with a
non-empty scheduled time or destination/origin, never exceeds the fixed board
capacity `ROWS`, and equals the upstream response order (the sibling-iterator
stream) mapped through the record builder, filtered by retention, and
truncated to capacity. -/
theorem c9_board_list_invariants (dep : Bool) (ts : List Char) :
    (∀ v ∈ parseTrainServices dep ts, keepSvc v = true) ∧
    (parseTrainServices dep ts).length ≤ ROWS ∧
    parseTrainServices dep ts =
      (((serviceStream ts (ts.length + 1) 0).map (mkSvc dep)).filter keepSvc).take ROWS := by
  have h := parseLoop_eq dep ts (ts.length + 1) 0 []
  simp only [List.nil_append, List.length_nil, Nat.sub_zero] at h
  unfold parseTrainServices
  rw [h]
  refine ⟨?_, ?_, rfl⟩
  · intro v hv
    exact (List.mem_filter.mp (List.take_subset _ _ hv)).2
  · exact List.length_take_le _ _

/-- C3: refreshing the ticker store twice in a row with the same notice list
performs exactly one content write: the first call (from a state whose
persisted hash does not match) writes and returns true, the second call finds
the persisted hash equal to the freshly computed one, skips the rewrite,
returns false, and leaves the filesystem untouched. -/
theorem c3_ticker_refresh_idempotent (fs0 : TickFS) (nrcc : List (List Char))
    (h : fs0.meta ≠ some (hashMessages (tickerList nrcc))) :
    (writeTickerFileIfChanged fs0 nrcc WriteFail.ok).1 = true ∧
    (writeTickerFileIfChanged fs0 nrcc WriteFail.ok).2.2 = 1 ∧
    (writeTickerFileIfChanged
      (writeTickerFileIfChanged fs0 nrcc WriteFail.ok).2.1 nrcc WriteFail.ok).1 = false ∧
    (writeTickerFileIfChanged
      (writeTickerFileIfChanged fs0 nrcc WriteFail.ok).2.1 nrcc WriteFail.ok).2.2 = 0 ∧
    (writeTickerFileIfChanged
      (writeTickerFileIfChanged fs0 nrcc WriteFail.ok).2.1 nrcc WriteFail.ok).2.1 =
      (writeTickerFileIfChanged fs0 nrcc WriteFail.ok).2.1 := by
  have hfirst : writeTickerFileIfChanged fs0 nrcc WriteFail.ok =
      (true, ⟨some (renderTicker (tickerList nrcc)), none,
        some (hashMessages (tickerList nrcc))⟩, 1) := by
    unfold writeTickerFileIfChanged
    rw [if_neg h, if_neg (by simp), if_neg (by simp)]
  rw [hfirst]
  refine ⟨rfl, rfl, ?_, ?_, ?_⟩ <;>
    · unfold writeTickerFileIfChanged
      rw [if_pos rfl]

/-- Witness for C3: an empty filesystem and the empty notice list. -/
theorem c3_witness :
    (⟨none, none, none⟩ : TickFS).meta ≠ some (hashMessages (tickerList [])) ∧
    ((writeTickerFileIfChanged ⟨none, none, none⟩ [] WriteFail.ok).1 = true ∧
      (writeTickerFileIfChanged ⟨none, none, none⟩ [] WriteFail.ok).2.2 = 1 ∧
      (writeTickerFileIfChanged
        (writeTickerFileIfChanged ⟨none, none, none⟩ [] WriteFail.ok).2.1 [] WriteFail.ok).1 =
        false ∧
      (writeTickerFileIfChanged
        (writeTickerFileIfChanged ⟨none, none, none⟩ [] WriteFail.ok).2.1 [] WriteFail.ok).2.2 =
        0 ∧
      (writeTickerFileIfChanged
        (writeTickerFileIfChanged ⟨none, none, none⟩ [] WriteFail.ok).2.1 [] WriteFail.ok).2.1 =
        (writeTickerFileIfChanged ⟨none, none, none⟩ [] WriteFail.ok).2.1) :=
  ⟨by decide, c3_ticker_refresh_idempotent ⟨none, none, none⟩ [] (by decide)⟩

/-- C4: two fetch calls within the debounce window make exactly one network
call.  When the first call is admitted by the guard (one POST), any second
call issued less than 800 ms after it — measured in wrapped `millis()`
arithmetic — is rejected by the debounce test and returns false having made
no network call, whatever its would-be response. -/
theorem c4_debounce_one_network_call (dep1 dep2 : Bool) (t1 t2 : Nat)
    (code1 code2 : Int) (body1 body2 crs1 crs2 : List Char) (st0 : FetchSt)
    (hg : (beginFetchGuard 800 t1 st0.guard).1 = true)
    (hd : sub32 t2 t1 < 800) :
    (fetchDarwinBoard dep1 t1 code1 body1 crs1 st0).2.2 = 1 ∧
    (fetchDarwinBoard dep2 t2 code2 body2 crs2
      (fetchDarwinBoard dep1 t1 code1 body1 crs1 st0).2.1).1 = false ∧
    (fetchDarwinBoard dep2 t2 code2 body2 crs2
      (fetchDarwinBoard dep1 t1 code1 body1 crs1 st0).2.1).2.2 = 0 := by
  obtain ⟨hnet1, hguard1⟩ := fetch_admitted dep1 t1 code1 body1 crs1 st0 hg
  have hrej : (beginFetchGuard 800 t2
      (fetchDarwinBoard dep1 t1 code1 body1 crs1 st0).2.1.guard).1 = false := by
    rw [hguard1]
    unfold beginFetchGuard
    rw [if_pos (by simpa [sub32_u32] using hd)]
  have h2 := fetch_rejected dep2 t2 code2 body2 crs2
    (fetchDarwinBoard dep1 t1 code1 body1 crs1 st0).2.1 hrej
  rw [h2]
  exact ⟨hnet1, rfl, rfl⟩

/-- Witness for C4: guard initially free with last-fetch stamp 0, first call
at 1000 ms (admitted), second call at 1500 ms (500 ms later, inside the
800 ms window). -/
theorem c4_witness :
    (beginFetchGuard 800 1000 (⟨[], [], "Board".data, ⟨true, 0⟩⟩ : FetchSt).guard).1 = true ∧
    sub32 1500 1000 < 800 ∧
    ((fetchDarwinBoard true 1000 200 [] [] ⟨[], [], "Board".data, ⟨true, 0⟩⟩).2.2 = 1 ∧
      (fetchDarwinBoard true 1500 200 [] []
        (fetchDarwinBoard true 1000 200 [] [] ⟨[], [], "Board".data, ⟨true, 0⟩⟩).2.1).1 = false ∧
      (fetchDarwinBoard true 1500 200 [] []
        (fetchDarwinBoard true 1000 200 [] [] ⟨[], [], "Board".data, ⟨true, 0⟩⟩).2.1).2.2 = 0) :=
  ⟨by decide, by decide,
    c4_debounce_one_network_call true true 1000 1500 200 200 [] [] [] []
      ⟨[], [], "Board".data, ⟨true, 0⟩⟩ (by decide) (by decide)⟩

/-- Counterexample to C1 as stated: a fetch that passes the guard and then
receives HTTP 500 returns false, but the previously non-empty service list is
NOT left unchanged — `fetchDarwinBoard` clears both lists before the network
call (rail.cpp lines 684-685), so the list is empty afterwards. -/
theorem c1_counterexample :
    (fetchDarwinBoard true 1000 500 [] "LDS".data
      ⟨[⟨"10:00".data, "Leeds".data, "On time".data, "1".data, "LNER".data, false⟩],
        [], "Board".data, ⟨true, 0⟩⟩).1 = false ∧
    (fetchDarwinBoard true 1000 500 [] "LDS".data
      ⟨[⟨"10:00".data, "Leeds".data, "On time".data, "1".data, "LNER".data, false⟩],
        [], "Board".data, ⟨true, 0⟩⟩).2.1.services ≠
      (⟨[⟨"10:00".data, "Leeds".data, "On time".data, "1".data, "LNER".data, false⟩],
        [], "Board".data, ⟨true, 0⟩⟩ : FetchSt).services := by
  decide

/-- C1 (amended): on an admitted fetch whose SOAP POST fails (any non-200
status), `fetch()` returns false and the Service Record and Notice lists are
left cleared — they were emptied at the start of the attempt, not preserved
at their last successful state. -/
theorem c1_amended_failed_fetch_clears_lists (dep : Bool) (now : Nat) (code : Int)
    (body crs : List Char) (st : FetchSt)
    (hg : (beginFetchGuard 800 now st.guard).1 = true) (hc : code ≠ 200) :
    (fetchDarwinBoard dep now code body crs st).1 = false ∧
    (fetchDarwinBoard dep now code body crs st).2.1.services = [] ∧
    (fetchDarwinBoard dep now code body crs st).2.1.nrccMsgs = [] := by
  have hge := beginFetchGuard_true_eq now st.guard hg
  unfold fetchDarwinBoard
  rw [hge]
  simp only [Prod.fst, Prod.snd]
  rw [if_neg (by simp), if_pos hc]
  exact ⟨rfl, rfl, rfl⟩

/-- Witness for C1 (amended): the concrete HTTP-500 scenario of the
counterexample. -/
theorem c1_amended_witness :
    (beginFetchGuard 800 1000
      (⟨[⟨"10:00".data, "Leeds".data, "On time".data, "1".data, "LNER".data, false⟩],
        [], "Board".data, ⟨true, 0⟩⟩ : FetchSt).guard).1 = true ∧
    (500 : Int) ≠ 200 ∧
    ((fetchDarwinBoard true 1000 500 [] "LDS".data
      ⟨[⟨"10:00".data, "Leeds".data, "On time".data, "1".data, "LNER".data, false⟩],
        [], "Board".data, ⟨true, 0⟩⟩).1 = false ∧
      (fetchDarwinBoard true 1000 500 [] "LDS".data
        ⟨[⟨"10:00".data, "Leeds".data, "On time".data, "1".data, "LNER".data, false⟩],
          [], "Board".data, ⟨true, 0⟩⟩).2.1.services = [] ∧
      (fetchDarwinBoard true 1000 500 [] "LDS".data
        ⟨[⟨"10:00".data, "Leeds".data, "On time".data, "1".data, "LNER".data, false⟩],
          [], "Board".data, ⟨true, 0⟩⟩).2.1.nrccMsgs = []) :=
  ⟨by decide, by decide,
    c1_amended_failed_fetch_clears_lists true 1000 500 [] "LDS".data
      ⟨[⟨"10:00".data, "Leeds".data, "On time".data, "1".data, "LNER".data, false⟩],
        [], "Board".data, ⟨true, 0⟩⟩ (by decide) (by decide)⟩

/-- Counterexample to C2 as stated: the refresh is not a pure
temp-write-then-rename.  The live file is explicitly removed (rail.cpp line
463) before the rename; a failure of the rename therefore leaves the
previously live backing file gone, not intact. -/
theorem c2_counterexample :
    (writeTickerFileIfChanged ⟨some "old".data, none, none⟩ ["Delays".data]
      WriteFail.rename).2.1.ticker = none ∧
    (⟨some "old".data, none, none⟩ : TickFS).ticker ≠ none := by
  decide

/-- C2 (amended): the live ticker file is never partially rewritten in place —
a failure before the temp file is written leaves the filesystem untouched,
and the whole new content always reaches the temp file first; but replacement
is remove-then-rename, not a single atomic rename: a failure between the
removal and the rename leaves no live file (the full new content survives
only in the temp file). -/
theorem c2_amended_remove_then_rename (fs : TickFS) (nrcc : List (List Char))
    (h : fs.meta ≠ some (hashMessages (tickerList nrcc))) :
    writeTickerFileIfChanged fs nrcc WriteFail.tmpOpen = (false, fs, 0) ∧
    ((writeTickerFileIfChanged fs nrcc WriteFail.rename).1 = false ∧
      (writeTickerFileIfChanged fs nrcc WriteFail.rename).2.1.ticker = none ∧
      (writeTickerFileIfChanged fs nrcc WriteFail.rename).2.1.tmp =
        some (renderTicker (tickerList nrcc))) ∧
    (writeTickerFileIfChanged fs nrcc WriteFail.ok).2.1.ticker =
      some (renderTicker (tickerList nrcc)) := by
  refine ⟨?_, ⟨?_, ?_, ?_⟩, ?_⟩ <;>
    · unfold writeTickerFileIfChanged
      rw [if_neg h]
      simp

/-- Witness for C2 (amended): the concrete filesystem of the counterexample. -/
theorem c2_amended_witness :
    (⟨some "old".data, none, none⟩ : TickFS).meta ≠
      some (hashMessages (tickerList ["Delays".data])) ∧
    (writeTickerFileIfChanged ⟨some "old".data, none, none⟩ ["Delays".data]
        WriteFail.tmpOpen = (false, ⟨some "old".data, none, none⟩, 0) ∧
      ((writeTickerFileIfChanged ⟨some "old".data, none, none⟩ ["Delays".data]
          WriteFail.rename).1 = false ∧
        (writeTickerFileIfChanged ⟨some "old".data, none, none⟩ ["Delays".data]
          WriteFail.rename).2.1.ticker = none ∧
        (writeTickerFileIfChanged ⟨some "old".data, none, none⟩ ["Delays".data]
          WriteFail.rename).2.1.tmp = some (renderTicker (tickerList ["Delays".data]))) ∧
      (writeTickerFileIfChanged ⟨some "old".data, none, none⟩ ["Delays".data]
        WriteFail.ok).2.1.ticker = some (renderTicker (tickerList ["Delays".data]))) :=
  ⟨by decide, c2_amended_remove_then_rename ⟨some "old".data, none, none⟩
    ["Delays".data] (by decide)⟩

/-- Counterexample to C5 as stated: the sentence terminator set is not
`{'.', '!', '?'}`.  On a notice whose first `'!'` precedes the first `'.'`,
the pipeline keeps the text through the `'.'` instead of stopping at the
`'!'` (rail.cpp line 195 searches only for `'.'`). -/
theorem c5_counterexample :
    noticeClean "Delays expected! Allow extra time.".data ≠ "Delays expected!".data ∧
    noticeClean "Delays expected! Allow extra time.".data =
      "Delays expected! Allow extra time.".data := by
  decide

/-- C5 (amended): the notice pipeline decodes the fixed entity set, strips
remaining `<...>` tag spans, collapses space runs, trims, and truncates to
the text up to and including the first sentence terminator, where the
terminator is `'.'` alone (not `'!'` or `'?'`); the worked example still
yields exactly "bold hi & bye.". -/
theorem c5_amended_notice_pipeline :
    (∀ s : List Char, noticeClean s = specNoticeClean s) ∧
    noticeClean "<b>bold</b> hi &amp; bye. Second sentence.".data = "bold hi & bye.".data :=
  ⟨noticeClean_eq_spec, by decide⟩

/-- C6: extraction of tag `T` from text containing a well-formed element with
local name `T` — carrying any namespace qualifier or none, and any attribute
text or none — returns the element's inner text, which does not depend on the
qualifier.  Leading content may contain other tags as long as each closes
before the element and none carries local name `T` (`preScanOk`), the name
parts avoid the scanner's delimiter characters, attribute text is
space-separated and `>`-free, and the inner text does not contain an early
copy of the closing tag. -/
theorem c6_get1ns_ignores_namespace_qualifier (pre : List Char)
    (pfx : Option (List Char)) (T attrs inner post : List Char)
    (hT2 : ∀ c ∈ T, c ≠ '>' ∧ c ≠ ' ' ∧ c ≠ ':')
    (hPfx : ∀ p, pfx = some p → ∀ c ∈ p, c ≠ '>' ∧ c ≠ ' ' ∧ c ≠ ':')
    (hA1 : ∀ c ∈ attrs, c ≠ '>')
    (hA2 : attrs = [] ∨ attrs.head? = some ' ')
    (hClose : ∀ i, i < inner.length →
      (closeTag pfx T).isPrefixOf ((inner ++ (closeTag pfx T ++ post)).drop i) = false)
    (hscan : preScanOk (pre ++ buildElem pfx T attrs inner post) T pre.length = true) :
    get1ns (pre ++ buildElem pfx T attrs inner post) T = inner := by
  have hrest : buildElem pfx T attrs inner post =
      '<' :: ((pfxColon pfx ++ T ++ attrs) ++ (('>' :: inner) ++
        (('<' :: '/' :: (pfxColon pfx ++ T)) ++ ('>' :: post)))) := by
    rw [buildElem]
    simp [List.append_assoc]
  have hi0 : (pre ++ buildElem pfx T attrs inner post)[pre.length]? = some '<' := by
    rw [hrest]
    exact getElem_at_append pre _ '<'
  have hlenx : pre.length < (pre ++ buildElem pfx T attrs inner post).length + 1 + 0 := by
    rw [List.length_append]
    omega
  exact get1nsGo_reach _ T pre.length inner hscan hi0
    (fun f => get1nsGo_elem_step pre pfx T attrs inner post hT2 hPfx hA1 hA2 hClose f)
    _ 0 (Nat.zero_le _) hlenx

/-- Witness for C6: `hello <a>x</a><ldb:std a="1">10:15</ldb:std><x>y</x>`
with tag `std` and qualifier `ldb`; the element is preceded by text and a
complete non-matching element and carries an attribute. -/
theorem c6_witness :
    (∀ c ∈ "std".data, c ≠ '>' ∧ c ≠ ' ' ∧ c ≠ ':') ∧
    (∀ p, (some "ldb".data : Option (List Char)) = some p →
      ∀ c ∈ p, c ≠ '>' ∧ c ≠ ' ' ∧ c ≠ ':') ∧
    (∀ c ∈ " a=\"1\"".data, c ≠ '>') ∧
    (" a=\"1\"".data = ([] : List Char) ∨ " a=\"1\"".data.head? = some ' ') ∧
    (∀ i, i < "10:15".data.length →
      (closeTag (some "ldb".data) "std".data).isPrefixOf
        (("10:15".data ++ (closeTag (some "ldb".data) "std".data ++ "<x>y</x>".data)).drop i) =
        false) ∧
    preScanOk ("hello <a>x</a>".data ++
      buildElem (some "ldb".data) "std".data " a=\"1\"".data "10:15".data "<x>y</x>".data)
      "std".data "hello <a>x</a>".data.length = true ∧
    get1ns ("hello <a>x</a>".data ++
      buildElem (some "ldb".data) "std".data " a=\"1\"".data "10:15".data "<x>y</x>".data)
      "std".data = "10:15".data :=
  ⟨by decide,
    fun p hp => by
      cases Option.some.inj hp
      decide,
    by decide, by decide, by decide, by decide,
    c6_get1ns_ignores_namespace_qualifier "hello <a>x</a>".data (some "ldb".data)
      "std".data " a=\"1\"".data "10:15".data "<x>y</x>".data
      (by decide)
      (fun p hp => by
        cases Option.some.inj hp
        decide)
      (by decide) (by decide) (by decide) (by decide)⟩

/-- C7: on input in which no tag head (at any `<` with a following `>`)
parses to local name `T`, single-tag extraction returns the empty string and
sibling iteration returns false — including malformed input; both operations
are total functions, so neither can throw. -/
theorem c7_missing_tag_fails_silently (xml tag : List Char)
    (h : ∀ a, a < xml.length → tagBareAt xml a ≠ some tag) :
    get1ns xml tag = [] ∧ nextTagNS xml tag 0 = none :=
  ⟨get1nsGo_notag xml tag h _ 0, nextTagNSGo_notag xml tag h _ 0⟩

/-- Witness for C7: malformed-ish input with several tags, an unclosed angle
and a dangling close tag, none of them carrying local name `zzz`. -/
theorem c7_witness :
    (∀ a, a < "<a>x</a><b:c d=\"e\">y</b:c></q><open".data.length →
      tagBareAt "<a>x</a><b:c d=\"e\">y</b:c></q><open".data a ≠ some "zzz".data) ∧
    (get1ns "<a>x</a><b:c d=\"e\">y</b:c></q><open".data "zzz".data = [] ∧
      nextTagNS "<a>x</a><b:c d=\"e\">y</b:c></q><open".data "zzz".data 0 = none) :=
  ⟨by decide,
    c7_missing_tag_fails_silently "<a>x</a><b:c d=\"e\">y</b:c></q><open".data
      "zzz".data (by decide)⟩

end Trakkr
